import Mathlib

/- Shallow embedding of the AP Calculus question selector core
   (src/question_selector_cli.py, src/question_selector.py, src/config.py).

   Page texts, lines, blocks and topic identifiers are modelled as lists of
   characters.  The character classes used by the Python code (regex \d and \s,
   str.strip, str.lower) are embedded in their ASCII fragment, which is the
   fragment the keyword catalog and the question-number pattern exercise. -/

namespace APCalc

abbrev Str := List Char

/-- ASCII whitespace: the fragment of Python's str.strip / regex \s used here. -/
def pySpace (c : Char) : Bool :=
  c == ' ' || c == '\t' || c == '\n' || c == '\x0b' || c == '\x0c' || c == '\r'

/-- Python `line.strip()`: remove leading and trailing whitespace. -/
def pyStrip (l : Str) : Str :=
  ((l.dropWhile pySpace).reverse.dropWhile pySpace).reverse

/-- `re.match(r'^\s*\d+\.\s+', line.strip())` from `_split_into_questions`:
after stripping, a maximal nonempty run of digits, a literal period, and at
least one whitespace character (the stripped string never ends in whitespace,
so content necessarily follows). -/
def startsQuestion (line : Str) : Bool :=
  match (pyStrip line).dropWhile Char.isDigit with
  | '.' :: c :: _ => !((pyStrip line).takeWhile Char.isDigit).isEmpty && pySpace c
  | _ => false

/-- Python `text.split('\n')`: always at least one (possibly empty) line. -/
def splitLines : Str → List Str
  | [] => [[]]
  | c :: rest =>
    if c = '\n' then [] :: splitLines rest
    else
      match splitLines rest with
      | [] => [[c]]
      | l :: ls => (c :: l) :: ls

/-- Python `'\n'.join(lines)`. -/
def joinLines : List Str → Str
  | [] => []
  | [l] => l
  | l :: l2 :: rest => l ++ '\n' :: joinLines (l2 :: rest)

/-- The accumulation loop of `_split_into_questions`: `current` is the block
being accumulated (empty list = no block open, matching Python's falsy `[]`). -/
def splitAux : List Str → List Str → List Str
  | [], current => if current.isEmpty then [] else [joinLines current]
  | line :: rest, current =>
    if startsQuestion line then
      (if current.isEmpty then [] else [joinLines current]) ++ splitAux rest [line]
    else
      if current.isEmpty then splitAux rest current
      else splitAux rest (current ++ [line])

/-- `QuestionExtractor._split_into_questions`. -/
def splitIntoQuestions (text : Str) : List Str :=
  splitAux (splitLines text) []

/-- The topic keyword catalog `TOPIC_KEYWORDS`. -/
def TOPIC_KEYWORDS : List (Str × List Str) :=
  [ ("1".data, ["limit".data, "continuity".data, "asymptote".data,
      "discontinuity".data, "intermediate value".data]),
    ("2".data, ["derivative".data, "rate of change".data, "tangent line".data,
      "differentiable".data, "power rule".data]),
    ("3".data, ["chain rule".data, "implicit differentiation".data,
      "inverse function".data, "composite".data]),
    ("4".data, ["related rates".data, "motion".data, "velocity".data,
      "acceleration".data, "optimization".data]),
    ("5".data, ["mean value theorem".data, "critical point".data, "extrema".data,
      "increasing".data, "decreasing".data, "concavity".data, "inflection".data]),
    ("6".data, ["integral".data, "antiderivative".data, "riemann sum".data,
      "accumulation".data, "fundamental theorem".data]),
    ("7".data, ["differential equation".data, "slope field".data,
      "exponential growth".data, "separation of variables".data]),
    ("8".data, ["area".data, "volume".data, "disk".data, "washer".data,
      "average value".data]),
    ("9".data, ["parametric".data, "polar".data, "vector".data]),
    ("10".data, ["series".data, "sequence".data, "convergence".data,
      "divergence".data, "taylor".data, "maclaurin".data]) ]

/-- Python `question_text.lower()` (ASCII fragment). -/
def lowerStr (l : Str) : Str := l.map Char.toLower

/-- Python's substring test `keyword in text_lower`: `kw` occurs contiguously
somewhere in `txt`. -/
def containsSubstring (kw : Str) : Str → Bool
  | [] => kw.isEmpty
  | c :: rest => kw.isPrefixOf (c :: rest) || containsSubstring kw rest

/-- `QuestionExtractor._identify_topics`: for each catalog entry, the id is
collected when some keyword is a substring of the lower-cased text (the
Python inner loop breaks at the first hit, which only affects which keyword
matched, not membership); `list(set(topics))` is modelled by `dedup`. -/
def identifyTopics (questionText : Str) : List Str :=
  (TOPIC_KEYWORDS.filterMap (fun p =>
    if p.2.any (fun kw => containsSubstring kw (lowerStr questionText)) then some p.1
    else none)).dedup

/-- One extracted question record (the dict built in
`extract_questions_from_pdf`). -/
structure Question where
  source : Str
  page : Nat
  text : Str
  topics : List Str
  deriving DecidableEq, Repr

/-- Observable behaviour of one configured source document, as seen by
`extract_questions_from_pdf`: the backing file may be missing
(`os.path.exists` is false), readable in full, or raise a lower-level
error after some pages were already read and processed. -/
inductive DocState where
  | missing : DocState
  | ok (pages : List Str) : DocState
  | failsAfter (pages : List Str) : DocState
  deriving DecidableEq, Repr

/-- The pages that `extract_questions_from_pdf` successfully processes. -/
def pagesOf : DocState → List Str
  | .missing => []
  | .ok pages => pages
  | .failsAfter pages => pages

/-- The page loop of `extract_questions_from_pdf`: `page_num` is the 0-based
index, records carry `page_num + 1`. -/
def extractPages (filename : Str) : Nat → List Str → List Question
  | _, [] => []
  | pageNum, pg :: rest =>
    (splitIntoQuestions pg).map (fun block =>
      { source := filename, page := pageNum + 1, text := block,
        topics := identifyTopics block })
      ++ extractPages filename (pageNum + 1) rest

/-- `QuestionExtractor.extract_questions_from_pdf`: a missing file returns the
empty list before the `try` block; a read failure is caught by the
`except` clause, which prints and then returns the records accumulated so
far (the pages read before the error). -/
def extractQuestionsFromPdf (filename : Str) (d : DocState) : List Question :=
  match d with
  | .missing => []
  | .ok pages => extractPages filename 0 pages
  | .failsAfter pages => extractPages filename 0 pages

/-- The scanning loop of `get_questions_by_topics`: records of every
configured document, concatenated in catalog order. -/
def extractAll (docs : List (Str × DocState)) : List Question :=
  docs.flatMap (fun p => extractQuestionsFromPdf p.1 p.2)

/-- `any(topic in question['topics'] for topic in selected_topics)`. -/
def matchesAny (selectedTopics : List Str) (q : Question) : Bool :=
  selectedTopics.any (fun t => q.topics.contains t)

/-- The filtering and limiting part of `get_questions_by_topics`:
`if max_questions and max_questions > 0: matching = matching[:max_questions]`
(None and 0 are falsy; a negative value fails `> 0`). -/
def selectQuestions (allQuestions : List Question) (selectedTopics : List Str)
    (maxQuestions : Option Int) : List Question :=
  match maxQuestions with
  | some m =>
    if 0 < m then (allQuestions.filter (matchesAny selectedTopics)).take m.toNat
    else allQuestions.filter (matchesAny selectedTopics)
  | none => allQuestions.filter (matchesAny selectedTopics)

/-- `QuestionExtractor.get_questions_by_topics` end to end, over the observable
states of the configured documents. -/
def getQuestionsByTopics (docs : List (Str × DocState))
    (selectedTopics : List Str) (maxQuestions : Option Int) : List Question :=
  selectQuestions (extractAll docs) selectedTopics maxQuestions

/-- The test-bank catalog `[f"TB_{i}.pdf" for i in [1, 3, 4, 5, 6, 7]]`. -/
def expectedTestBanks : List Str :=
  ["TB_1.pdf".data, "TB_3.pdf".data, "TB_4.pdf".data,
   "TB_5.pdf".data, "TB_6.pdf".data, "TB_7.pdf".data]

/-- `config.get_available_test_banks`, over an abstract existence test. -/
def getAvailableTestBanks (existsFile : Str → Bool) : List Str :=
  expectedTestBanks.filter existsFile

/-- Modelled from the spec (§4.1): the blocks are the question-start groups of
a line sequence — each group is one question-start line followed by the
following non-question-start lines, up to the next question-start line.
Structural fuel (the list length suffices) keeps the definition executable. -/
def questionGroupsAux : Nat → List Str → List (List Str)
  | 0, _ => []
  | _, [] => []
  | fuel + 1, l :: rest =>
    (l :: rest.takeWhile (fun x => !startsQuestion x)) ::
      questionGroupsAux fuel (rest.dropWhile (fun x => !startsQuestion x))

/-- Modelled from the spec (§4.1): grouping of a line sequence at
question-start lines. -/
def questionGroups (ls : List Str) : List (List Str) :=
  questionGroupsAux ls.length ls

/-- Modelled from the spec (§4.1): segmentation discards every line before the
first question-start line and emits each group joined with newlines. -/
def specSegment (text : Str) : List Str :=
  (questionGroups ((splitLines text).dropWhile (fun l => !startsQuestion l))).map
    joinLines

/-- Modelled from the spec (§4.4): a record is selected iff its topics set has
non-empty intersection with the wanted topics; stable filter. -/
def specSelected (records : List Question) (wantedTopics : List Str) :
    List Question :=
  records.filter (fun q => decide (∃ t, t ∈ wantedTopics ∧ t ∈ q.topics))

/-- The question-start pattern in the words of the spec: the stripped line is
one or more ASCII digits, a literal period, at least one whitespace
character, and then further content. -/
def IsQuestionStart (line : Str) : Prop :=
  ∃ ds w r, pyStrip line = ds ++ '.' :: w :: r ∧ ds ≠ [] ∧
    (∀ c ∈ ds, c.isDigit = true) ∧ pySpace w = true ∧ r ≠ []

/-- A sample page text used as concrete input for witnesses. -/
def demoPage : Str :=
  "Header junk\n1. Find the limit.\nmore text\n2. Evaluate the derivative.".data

/-- A sample record list used as concrete input for witnesses. -/
def demoRecords : List Question :=
  [ { source := "TB_1.pdf".data, page := 1, text := "1. Find the limit.".data,
      topics := ["1".data] },
    { source := "TB_1.pdf".data, page := 1, text := "2. Compute.".data,
      topics := [] },
    { source := "TB_1.pdf".data, page := 2, text := "3. Area question.".data,
      topics := ["8".data] },
    { source := "TB_3.pdf".data, page := 1, text := "4. Another limit.".data,
      topics := ["1".data, "6".data] } ]

/-- A sample one-page document used as concrete input for witnesses. -/
def demoDoc : DocState := DocState.ok ["1. x".data]

/-- The record that extraction produces from `demoDoc`. -/
def demoQuestion : Question :=
  { source := "TB_1.pdf".data, page := 1, text := "1. x".data, topics := [] }

end APCalc

namespace APCalc

theorem matchesAny_eq_spec (wanted : List Str) (q : Question) :
    matchesAny wanted q = decide (∃ t, t ∈ wanted ∧ t ∈ q.topics) := by
  refine Bool.eq_iff_iff.mpr ?_
  simp [matchesAny, List.any_eq_true, List.elem_iff]

theorem filter_matches_eq (records : List Question) (wanted : List Str) :
    records.filter (matchesAny wanted) = specSelected records wanted :=
  List.filter_congr (fun q _ => matchesAny_eq_spec wanted q)

/-- C4: `select` returns exactly the records whose topics set meets the wanted
topics, in input order (a stable filter), and an empty wanted set yields the
empty result rather than an error. -/
theorem select_is_stable_topic_filter (records : List Question)
    (wanted : List Str) :
    selectQuestions records wanted none = specSelected records wanted
    ∧ (wanted = [] → selectQuestions records wanted none = []) := by
  constructor
  · simpa [selectQuestions] using filter_matches_eq records wanted
  · intro h
    subst h
    simp [selectQuestions, matchesAny]

theorem select_is_stable_topic_filter_witness :
    selectQuestions demoRecords [] none = [] :=
  (select_is_stable_topic_filter demoRecords []).2 rfl

/-- C5: with S the topic-selected subsequence, a positive limit L returns the
first min(L, |S|) records of S, while an absent, zero, or negative limit
returns all of S. -/
theorem select_limit_min (records : List Question) (wanted : List Str)
    (L : Int) :
    (0 < L → selectQuestions records wanted (some L)
        = (specSelected records wanted).take L.toNat
      ∧ (selectQuestions records wanted (some L)).length
        = min L.toNat (specSelected records wanted).length)
    ∧ (L ≤ 0 →
        selectQuestions records wanted (some L) = specSelected records wanted)
    ∧ selectQuestions records wanted none = specSelected records wanted := by
  refine ⟨?_, ?_, ?_⟩
  · intro hL
    have h1 : selectQuestions records wanted (some L)
        = (specSelected records wanted).take L.toNat := by
      simp [selectQuestions, filter_matches_eq, hL]
    exact ⟨h1, by rw [h1, List.length_take]⟩
  · intro hL
    have h0 : ¬ (0 < L) := not_lt.mpr hL
    simp [selectQuestions, filter_matches_eq, h0]
  · simp [selectQuestions, filter_matches_eq]

theorem select_limit_min_witness :
    selectQuestions demoRecords ["1".data] (some 1)
      = (specSelected demoRecords ["1".data]).take ((1 : Int).toNat)
    ∧ (selectQuestions demoRecords ["1".data] (some 1)).length
      = min ((1 : Int).toNat) (specSelected demoRecords ["1".data]).length :=
  (select_limit_min demoRecords ["1".data] 1).1 (by decide)

theorem containsSubstring_iff (kw : Str) : ∀ (txt : Str),
    containsSubstring kw txt = true ↔ ∃ a b, txt = a ++ kw ++ b := by
  intro txt
  induction txt with
  | nil =>
    constructor
    · intro h
      have hk : kw = [] := by
        simpa [containsSubstring, List.isEmpty_iff] using h
      exact ⟨[], [], by simp [hk]⟩
    · rintro ⟨a, b, h⟩
      have h1 := List.append_eq_nil.mp h.symm
      have h2 := List.append_eq_nil.mp h1.1
      simp [containsSubstring, List.isEmpty_iff, h2.2]
  | cons c rest ih =>
    constructor
    · intro h
      have h2 : kw.isPrefixOf (c :: rest) = true
          ∨ containsSubstring kw rest = true := by
        simpa [containsSubstring] using h
      rcases h2 with hp | hc
      · obtain ⟨t, ht⟩ := List.isPrefixOf_iff_prefix.mp hp
        exact ⟨[], t, by simp [← ht]⟩
      · obtain ⟨a, b, hab⟩ := ih.mp hc
        exact ⟨c :: a, b, by simp [hab]⟩
    · rintro ⟨a, b, hab⟩
      cases a with
      | nil =>
        have hpre : kw.isPrefixOf (c :: rest) = true := by
          refine List.isPrefixOf_iff_prefix.mpr ⟨b, ?_⟩
          simpa using hab.symm
        simp [containsSubstring, hpre]
      | cons c2 a2 =>
        have hc : c = c2 ∧ rest = a2 ++ kw ++ b := by simpa using hab
        simp [containsSubstring, ih.mpr ⟨a2, b, hc.2⟩]

theorem key_unique {α β : Type} [DecidableEq α] :
    ∀ {l : List (α × β)}, (l.map Prod.fst).Nodup →
      ∀ {a : α} {b b2 : β}, (a, b) ∈ l → (a, b2) ∈ l → b = b2 := by
  intro l
  induction l with
  | nil => intro _ a b b2 h; cases h
  | cons p tl ih =>
    intro hn a b b2 h1 h2
    rw [List.map_cons, List.nodup_cons] at hn
    rcases List.mem_cons.mp h1 with e1 | m1 <;> rcases List.mem_cons.mp h2 with e2 | m2
    · exact congrArg Prod.snd (e1.trans e2.symm)
    · exfalso
      have : a ∈ tl.map Prod.fst := List.mem_map.mpr ⟨(a, b2), m2, rfl⟩
      exact hn.1 (by rw [← congrArg Prod.fst e1]; exact this)
    · exfalso
      have : a ∈ tl.map Prod.fst := List.mem_map.mpr ⟨(a, b), m1, rfl⟩
      exact hn.1 (by rw [← congrArg Prod.fst e2]; exact this)
    · exact ih hn.2 m1 m2

theorem topicKeysNodup : (TOPIC_KEYWORDS.map Prod.fst).Nodup := by decide

/-- C1: for every catalog entry, the classifier's result contains the entry's
id iff some keyword of the entry occurs as a substring of the lower-cased
block text, and when no keyword of any entry matches, the result is the
empty set (a valid result, not an error). -/
theorem identify_topics_keyword_spec (text id : Str) (kws : List Str)
    (hmem : (id, kws) ∈ TOPIC_KEYWORDS) :
    (id ∈ identifyTopics text ↔ ∃ kw ∈ kws, ∃ a b, lowerStr text = a ++ kw ++ b)
    ∧ ((∀ p ∈ TOPIC_KEYWORDS, ∀ kw ∈ p.2,
          ¬ ∃ a b, lowerStr text = a ++ kw ++ b)
        → identifyTopics text = []) := by
  constructor
  · rw [identifyTopics, List.mem_dedup, List.mem_filterMap]
    constructor
    · rintro ⟨p, hp, hsome⟩
      by_cases hany :
          p.2.any (fun kw => containsSubstring kw (lowerStr text)) = true
      · rw [if_pos hany] at hsome
        have hid : p.1 = id := Option.some.inj hsome
        have hp2 : (id, p.2) ∈ TOPIC_KEYWORDS := by
          obtain ⟨p1, psnd⟩ := p
          simp only at hid
          rw [← hid]
          exact hp
        have hkws : p.2 = kws := key_unique topicKeysNodup hp2 hmem
        obtain ⟨kw, hkw, hsub⟩ := List.any_eq_true.mp hany
        exact ⟨kw, hkws ▸ hkw, (containsSubstring_iff kw _).mp hsub⟩
      · rw [if_neg hany] at hsome
        cases hsome
    · rintro ⟨kw, hkw, a, b, hab⟩
      refine ⟨(id, kws), hmem, ?_⟩
      have hany : (id, kws).2.any
          (fun kw => containsSubstring kw (lowerStr text)) = true :=
        List.any_eq_true.mpr
          ⟨kw, hkw, (containsSubstring_iff kw _).mpr ⟨a, b, hab⟩⟩
      rw [if_pos hany]
  · intro hnone
    have hfm : TOPIC_KEYWORDS.filterMap (fun p =>
        if p.2.any (fun kw => containsSubstring kw (lowerStr text)) then some p.1
        else none) = [] := by
      refine List.filterMap_eq_nil_iff.mpr (fun p hp => ?_)
      have hany : p.2.any (fun kw => containsSubstring kw (lowerStr text))
          = false := by
        rw [← Bool.not_eq_true]
        intro hany
        obtain ⟨kw, hkw, hsub⟩ := List.any_eq_true.mp hany
        exact hnone p hp kw hkw ((containsSubstring_iff kw _).mp hsub)
      simp [hany]
    rw [identifyTopics, hfm]
    rfl

theorem identify_topics_keyword_spec_witness :
    "1".data ∈ identifyTopics ("1. Find the limit.".data) :=
  ((identify_topics_keyword_spec ("1. Find the limit.".data) ("1".data)
      (["limit".data, "continuity".data, "asymptote".data,
        "discontinuity".data, "intermediate value".data]) (by decide)).1).mpr
    ⟨"limit".data, by decide, "1. find the ".data, ".".data, by decide⟩

theorem splitAux_length (lines : List Str) : ∀ (current : List Str),
    (splitAux lines current).length
      = lines.countP startsQuestion + (if current.isEmpty then 0 else 1) := by
  induction lines with
  | nil =>
    intro current
    cases current <;> simp [splitAux]
  | cons line rest ih =>
    intro current
    by_cases hq : startsQuestion line
    · cases current <;> simp [splitAux, hq, ih, List.countP_cons]
    · cases current with
      | nil => simp [splitAux, hq, ih, List.countP_cons]
      | cons c cs => simp [splitAux, hq, ih, List.countP_cons]

theorem dropWhile_head_false {α : Type} {p : α → Bool} :
    ∀ {l : List α} {y : α} {ys : List α},
      l.dropWhile p = y :: ys → p y = false := by
  intro l
  induction l with
  | nil => intro y ys h; simp [List.dropWhile] at h
  | cons c rest ih =>
    intro y ys h
    rw [List.dropWhile_cons] at h
    by_cases hc : p c
    · rw [if_pos hc] at h
      exact ih h
    · rw [if_neg hc] at h
      injection h with h1 _
      rw [Bool.not_eq_true] at hc
      rw [← h1]
      exact hc

theorem pyStrip_last_not_space (l a : Str) (c : Char)
    (h : pyStrip l = a ++ [c]) : pySpace c = false := by
  have h2 : (l.dropWhile pySpace).reverse.dropWhile pySpace = c :: a.reverse := by
    have h3 := congrArg List.reverse h
    simpa [pyStrip] using h3
  exact dropWhile_head_false h2

theorem takeWhile_all_append {p : Char → Bool} :
    ∀ (ds : Str) (x : Char) (t : Str), (∀ c ∈ ds, p c = true) → p x = false →
      (ds ++ x :: t).takeWhile p = ds ∧ (ds ++ x :: t).dropWhile p = x :: t := by
  intro ds
  induction ds with
  | nil =>
    intro x t _ hx
    simp [List.takeWhile_cons, List.dropWhile_cons, hx]
  | cons d ds ih =>
    intro x t hall hx
    have hd : p d = true := hall d (List.mem_cons_self d ds)
    have ih2 := ih x t (fun c hc => hall c (List.mem_cons_of_mem d hc)) hx
    simp [List.takeWhile_cons, List.dropWhile_cons, hd, ih2.1, ih2.2]

theorem startsQuestion_iff (line : Str) :
    startsQuestion line = true ↔ IsQuestionStart line := by
  constructor
  · intro h
    unfold startsQuestion at h
    split at h
    next c rest heq =>
      rw [Bool.and_eq_true] at h
      have hdsne : (pyStrip line).takeWhile Char.isDigit ≠ [] := by
        have := h.1
        simpa [List.isEmpty_iff] using this
      have hsplit : pyStrip line
          = (pyStrip line).takeWhile Char.isDigit ++ '.' :: c :: rest := by
        conv_lhs => rw [← List.takeWhile_append_dropWhile
          (p := Char.isDigit) (l := pyStrip line)]
        rw [heq]
      refine ⟨(pyStrip line).takeWhile Char.isDigit, c, rest, hsplit, hdsne,
        fun ch hch => List.mem_takeWhile_imp hch, h.2, ?_⟩
      intro hrest
      subst hrest
      have hlast : pyStrip line
          = ((pyStrip line).takeWhile Char.isDigit ++ ['.']) ++ [c] := by
        simpa using hsplit
      have hcf := pyStrip_last_not_space line _ c hlast
      rw [h.2] at hcf
      cases hcf
    next => cases h
  · rintro ⟨ds, w, r, heq, hne, hdig, hw, _⟩
    have hsd := takeWhile_all_append ds '.' (w :: r) hdig (by decide)
    unfold startsQuestion
    rw [heq, hsd.2]
    simp [hsd.1, hw, List.isEmpty_iff, hne]

/-- C2: the number of blocks equals the number of question-start lines, where
a question-start line is one whose stripped form is digits, a period, at
least one whitespace character, then content; a page with no
question-start line yields no blocks. -/
theorem segment_count_eq_question_starts (text : Str) :
    (splitIntoQuestions text).length
      = ((splitLines text).filter startsQuestion).length
    ∧ (∀ line : Str, startsQuestion line = true ↔ IsQuestionStart line)
    ∧ ((splitLines text).all (fun l => !startsQuestion l) = true
        → splitIntoQuestions text = []) := by
  refine ⟨?_, startsQuestion_iff, ?_⟩
  · rw [splitIntoQuestions, splitAux_length, ← List.countP_eq_length_filter]
    simp
  · intro hall
    have h0 : (splitLines text).countP startsQuestion = 0 := by
      refine List.countP_eq_zero.mpr (fun l hl => ?_)
      have := List.all_eq_true.mp hall l hl
      simpa using this
    have hlen : (splitIntoQuestions text).length = 0 := by
      rw [splitIntoQuestions, splitAux_length, h0]
      simp
    exact List.length_eq_zero.mp hlen

theorem segment_count_eq_question_starts_witness :
    (splitIntoQuestions demoPage).length
      = ((splitLines demoPage).filter startsQuestion).length
    ∧ splitIntoQuestions ("no questions here".data) = [] :=
  ⟨(segment_count_eq_question_starts demoPage).1,
    (segment_count_eq_question_starts ("no questions here".data)).2.2 (by decide)⟩

theorem questionGroupsAux_congr : ∀ (f1 f2 : Nat) (ls : List Str),
    ls.length ≤ f1 → ls.length ≤ f2 →
    questionGroupsAux f1 ls = questionGroupsAux f2 ls := by
  intro f1
  induction f1 with
  | zero =>
    intro f2 ls h1 _
    have hls : ls = [] := List.length_eq_zero.mp (Nat.le_zero.mp h1)
    subst hls
    cases f2 <;> rfl
  | succ f1 ih =>
    intro f2 ls h1 h2
    cases ls with
    | nil => cases f2 <;> rfl
    | cons l rest =>
      cases f2 with
      | zero => simp at h2
      | succ f2 =>
        rw [questionGroupsAux, questionGroupsAux]
        congr 1
        exact ih f2 _
          (le_trans ((List.dropWhile_sublist _).length_le) (by simpa using h1))
          (le_trans ((List.dropWhile_sublist _).length_le) (by simpa using h2))

theorem questionGroups_cons (l : Str) (rest : List Str) :
    questionGroups (l :: rest)
      = (l :: rest.takeWhile (fun x => !startsQuestion x)) ::
          questionGroups (rest.dropWhile (fun x => !startsQuestion x)) := by
  rw [questionGroups, show (l :: rest).length = rest.length + 1 from rfl,
    questionGroupsAux]
  congr 1
  exact questionGroupsAux_congr rest.length _ _
    ((List.dropWhile_sublist _).length_le) (le_refl _)

theorem questionGroups_flatten_aux : ∀ (n : Nat) (ls : List Str),
    ls.length ≤ n → (questionGroups ls).flatten = ls := by
  intro n
  induction n with
  | zero =>
    intro ls h
    have hls : ls = [] := List.length_eq_zero.mp (Nat.le_zero.mp h)
    subst hls
    rfl
  | succ n ih =>
    intro ls h
    cases ls with
    | nil => rfl
    | cons l rest =>
      rw [questionGroups_cons, List.flatten_cons]
      rw [ih _ (le_trans ((List.dropWhile_sublist _).length_le) (by simpa using h))]
      simp [List.takeWhile_append_dropWhile]

theorem questionGroups_flatten (ls : List Str) :
    (questionGroups ls).flatten = ls :=
  questionGroups_flatten_aux ls.length ls (le_refl _)

theorem questionGroups_structure_aux : ∀ (n : Nat) (ls : List Str),
    ls.length ≤ n →
    (∀ l0 rest0, ls = l0 :: rest0 → startsQuestion l0 = true) →
    ∀ g ∈ questionGroups ls,
      ∃ l body, g = l :: body ∧ startsQuestion l = true
        ∧ ∀ b ∈ body, startsQuestion b = false := by
  intro n
  induction n with
  | zero =>
    intro ls h _ g hg
    have hls : ls = [] := List.length_eq_zero.mp (Nat.le_zero.mp h)
    subst hls
    simp [questionGroups, questionGroupsAux] at hg
  | succ n ih =>
    intro ls h hhead g hg
    cases ls with
    | nil => simp [questionGroups, questionGroupsAux] at hg
    | cons l rest =>
      rw [questionGroups_cons] at hg
      rcases List.mem_cons.mp hg with rfl | hg2
      · refine ⟨l, rest.takeWhile (fun x => !startsQuestion x), rfl,
          hhead l rest rfl, ?_⟩
        intro b hb
        have := List.mem_takeWhile_imp hb
        simpa using this
      · refine ih _
          (le_trans ((List.dropWhile_sublist _).length_le) (by simpa using h)) ?_ g hg2
        intro l0 rest0 heq
        have := dropWhile_head_false (p := fun x => !startsQuestion x) heq
        simpa using this

theorem questionGroups_subset_aux : ∀ (n : Nat) (ls : List Str),
    ls.length ≤ n → ∀ g ∈ questionGroups ls, ∀ x ∈ g, x ∈ ls := by
  intro n
  induction n with
  | zero =>
    intro ls h g hg
    have hls : ls = [] := List.length_eq_zero.mp (Nat.le_zero.mp h)
    subst hls
    simp [questionGroups, questionGroupsAux] at hg
  | succ n ih =>
    intro ls h g hg x hx
    cases ls with
    | nil => simp [questionGroups, questionGroupsAux] at hg
    | cons l rest =>
      rw [questionGroups_cons] at hg
      rcases List.mem_cons.mp hg with rfl | hg2
      · rcases List.mem_cons.mp hx with rfl | hx2
        · exact List.mem_cons_self _ _
        · exact List.mem_cons_of_mem _ ((List.takeWhile_sublist _).subset hx2)
      · have hmem := ih _
          (le_trans ((List.dropWhile_sublist _).length_le) (by simpa using h)) g hg2 x hx
        exact List.mem_cons_of_mem _ ((List.dropWhile_sublist _).subset hmem)

theorem splitLines_ne_nil : ∀ (t : Str), splitLines t ≠ [] := by
  intro t
  cases t with
  | nil => simp [splitLines]
  | cons c rest =>
    rw [splitLines]
    by_cases hc : c = '\n'
    · simp [hc]
    · rw [if_neg hc]
      cases h : splitLines rest <;> simp

theorem splitLines_no_newline : ∀ (t : Str) (l : Str),
    l ∈ splitLines t → '\n' ∉ l := by
  intro t
  induction t with
  | nil =>
    intro l hl
    simp [splitLines] at hl
    subst hl
    simp
  | cons c rest ih =>
    intro l hl
    rw [splitLines] at hl
    by_cases hc : c = '\n'
    · rw [if_pos hc] at hl
      rcases List.mem_cons.mp hl with rfl | h2
      · simp
      · exact ih l h2
    · rw [if_neg hc] at hl
      cases h : splitLines rest with
      | nil => exact absurd h (splitLines_ne_nil rest)
      | cons l0 ls =>
        rw [h] at hl
        rcases List.mem_cons.mp hl with rfl | h2
        · intro hmem
          rcases List.mem_cons.mp hmem with heq | h3
          · exact hc heq.symm
          · refine ih l0 ?_ h3
            rw [h]
            exact List.mem_cons_self l0 ls
        · refine ih l ?_
          rw [h]
          exact List.mem_cons_of_mem l0 h2

theorem splitLines_single (l : Str) (h : '\n' ∉ l) : splitLines l = [l] := by
  induction l with
  | nil => rfl
  | cons c rest ih =>
    have hc : c ≠ '\n' := fun he => h (he ▸ List.mem_cons_self c rest)
    have hr : '\n' ∉ rest := fun hm => h (List.mem_cons_of_mem c hm)
    rw [splitLines, if_neg hc, ih hr]

theorem splitLines_append (a b : Str) (h : '\n' ∉ a) :
    splitLines (a ++ '\n' :: b) = a :: splitLines b := by
  induction a with
  | nil => simp [splitLines]
  | cons c rest ih =>
    have hc : c ≠ '\n' := fun he => h (he ▸ List.mem_cons_self c rest)
    have hr : '\n' ∉ rest := fun hm => h (List.mem_cons_of_mem c hm)
    rw [List.cons_append, splitLines, if_neg hc, ih hr]

theorem splitLines_joinLines : ∀ (gs : List Str), gs ≠ [] →
    (∀ g ∈ gs, '\n' ∉ g) → splitLines (joinLines gs) = gs := by
  intro gs
  induction gs with
  | nil => intro h; cases h rfl
  | cons g gs ih =>
    intro _ hnl
    cases gs with
    | nil => exact splitLines_single g (hnl g (List.mem_cons_self _ _))
    | cons g2 rest =>
      rw [joinLines, splitLines_append _ _ (hnl g (List.mem_cons_self _ _))]
      rw [ih (by simp) (fun x hx => hnl x (List.mem_cons_of_mem _ hx))]

theorem splitAux_spec_nonempty : ∀ (lines : List Str) (current : List Str),
    current ≠ [] →
    splitAux lines current
      = joinLines (current ++ lines.takeWhile (fun l => !startsQuestion l))
        :: (questionGroups (lines.dropWhile (fun l => !startsQuestion l))).map
            joinLines := by
  intro lines
  induction lines with
  | nil =>
    intro current hc
    rw [splitAux, if_neg (by simpa [List.isEmpty_iff] using hc)]
    simp [questionGroups, questionGroupsAux]
  | cons line rest ih =>
    intro current hc
    have hce : current.isEmpty = false := by simpa [List.isEmpty_iff] using hc
    by_cases hq : startsQuestion line
    · rw [splitAux, if_pos hq, hce]
      rw [ih [line] (by simp)]
      simp [List.takeWhile_cons, List.dropWhile_cons, hq, questionGroups_cons]
    · rw [splitAux, if_neg hq, hce]
      rw [ih (current ++ [line]) (by simp)]
      simp [List.takeWhile_cons, List.dropWhile_cons, hq]

theorem splitAux_spec_empty : ∀ (lines : List Str),
    splitAux lines []
      = (questionGroups (lines.dropWhile (fun l => !startsQuestion l))).map
          joinLines := by
  intro lines
  induction lines with
  | nil => rfl
  | cons line rest ih =>
    by_cases hq : startsQuestion line
    · rw [splitAux, if_pos hq]
      rw [splitAux_spec_nonempty rest [line] (by simp)]
      simp [List.dropWhile_cons, hq, questionGroups_cons]
    · rw [splitAux, if_neg hq]
      simp [List.dropWhile_cons, hq, ih]

/-- C3: segmentation equals the specification-shaped grouping — each block is
one question-start line (kept verbatim) followed by the following lines up
to but excluding the next question-start line, joined with newlines, and
lines before the first question-start line belong to no block; moreover
every group starts with a question-start line followed only by
non-question-start lines. -/
theorem segment_matches_spec_blocks (text : Str) :
    splitIntoQuestions text = specSegment text
    ∧ ∀ g ∈ questionGroups
        ((splitLines text).dropWhile (fun l => !startsQuestion l)),
      ∃ l body, g = l :: body ∧ startsQuestion l = true
        ∧ ∀ b ∈ body, startsQuestion b = false := by
  constructor
  · rw [splitIntoQuestions, splitAux_spec_empty, specSegment]
  · refine questionGroups_structure_aux _ _ (le_refl _) ?_
    intro l0 rest0 heq
    have := dropWhile_head_false (p := fun l => !startsQuestion l) heq
    simpa using this

theorem segment_matches_spec_blocks_witness :
    ∃ l body, ("1. Find the limit.".data :: ["more text".data]) = l :: body
      ∧ startsQuestion l = true ∧ ∀ b ∈ body, startsQuestion b = false :=
  (segment_matches_spec_blocks demoPage).2 _ (by decide)

/-- C10: when a page has a question-start line, the blocks' lines
concatenate, in block order, to exactly the page's lines from the first
question-start line through the last line: nothing at or after the first
question-start line is dropped, duplicated, reordered, or altered. -/
theorem segment_preserves_line_suffix (text : Str)
    (h : ∃ l ∈ splitLines text, startsQuestion l = true) :
    ((splitIntoQuestions text).map splitLines).flatten
      = (splitLines text).dropWhile (fun l => !startsQuestion l)
    ∧ (splitLines text).takeWhile (fun l => !startsQuestion l)
        ++ (splitLines text).dropWhile (fun l => !startsQuestion l)
      = splitLines text
    ∧ ∃ l rest, (splitLines text).dropWhile (fun l => !startsQuestion l)
        = l :: rest ∧ startsQuestion l = true := by
  refine ⟨?_, List.takeWhile_append_dropWhile _ _, ?_⟩
  · rw [splitIntoQuestions, splitAux_spec_empty, List.map_map]
    have hhead : ∀ l0 rest0,
        (splitLines text).dropWhile (fun l => !startsQuestion l) = l0 :: rest0
        → startsQuestion l0 = true := by
      intro l0 rest0 heq
      have := dropWhile_head_false (p := fun l => !startsQuestion l) heq
      simpa using this
    have hmap : (questionGroups
        ((splitLines text).dropWhile (fun l => !startsQuestion l))).map
          (splitLines ∘ joinLines)
        = (questionGroups
        ((splitLines text).dropWhile (fun l => !startsQuestion l))).map id := by
      refine List.map_congr_left (fun g hg => ?_)
      obtain ⟨l, body, rfl, _, _⟩ :=
        questionGroups_structure_aux _ _ (le_refl _) hhead g hg
      have hfree : ∀ x ∈ l :: body, '\n' ∉ x := by
        intro x hx
        have hxd := questionGroups_subset_aux _ _ (le_refl _) _ hg x hx
        have hxl : x ∈ splitLines text :=
          (List.dropWhile_sublist _).subset hxd
        exact splitLines_no_newline text x hxl
      exact splitLines_joinLines _ (by simp) hfree
    rw [hmap, List.map_id]
    exact questionGroups_flatten _
  · have hne : (splitLines text).dropWhile (fun l => !startsQuestion l) ≠ [] := by
      intro hnil
      obtain ⟨l, hl, hql⟩ := h
      have := List.dropWhile_eq_nil_iff.mp hnil l hl
      simp [hql] at this
    obtain ⟨l, rest, hcons⟩ := List.exists_cons_of_ne_nil hne
    refine ⟨l, rest, hcons, ?_⟩
    have := dropWhile_head_false (p := fun l => !startsQuestion l) hcons
    simpa using this

theorem segment_preserves_line_suffix_witness :
    ((splitIntoQuestions demoPage).map splitLines).flatten
      = (splitLines demoPage).dropWhile (fun l => !startsQuestion l)
    ∧ (splitLines demoPage).takeWhile (fun l => !startsQuestion l)
        ++ (splitLines demoPage).dropWhile (fun l => !startsQuestion l)
      = splitLines demoPage
    ∧ ∃ l rest, (splitLines demoPage).dropWhile (fun l => !startsQuestion l)
        = l :: rest ∧ startsQuestion l = true :=
  segment_preserves_line_suffix demoPage (by decide)

/-- C6 (counterexample): a document that fails after one readable page with a
question contributes that page's record — not zero records — so the claim
that no partial record is contributed is false on the code. -/
theorem failed_doc_partial_counterexample :
    ¬ (extractQuestionsFromPdf ("TB_3.pdf".data)
        (DocState.failsAfter ["1. x".data]) = []) := by decide

/-- C6 (amended): on a read failure the pipeline reports it for that document
only, keeps the records of the pages read before the error (a partial
contribution), does not abort, and continues with the remaining documents. -/
theorem failed_doc_keeps_partial_and_continues (f : Str) (pages : List Str)
    (pre post : List (Str × DocState)) :
    extractQuestionsFromPdf f (DocState.failsAfter pages)
      = extractPages f 0 pages
    ∧ extractAll (pre ++ (f, DocState.failsAfter pages) :: post)
        = extractAll pre ++ extractPages f 0 pages ++ extractAll post := by
  refine ⟨rfl, ?_⟩
  simp [extractAll, extractQuestionsFromPdf]

theorem pairwise_of_total {α : Type} {R : α → α → Prop} (h : ∀ a b, R a b) :
    ∀ (l : List α), l.Pairwise R := by
  intro l
  induction l with
  | nil => exact List.Pairwise.nil
  | cons a l ih => exact List.Pairwise.cons (fun b _ => h a b) ih

theorem extractPages_page_lb (f : Str) :
    ∀ (ps : List Str) (n : Nat) (q : Question),
      q ∈ extractPages f n ps → n + 1 ≤ q.page := by
  intro ps
  induction ps with
  | nil => intro n q h; simp [extractPages] at h
  | cons pg rest ih =>
    intro n q h
    rw [extractPages] at h
    rcases List.mem_append.mp h with hm | hm
    · obtain ⟨b, _, rfl⟩ := List.mem_map.mp hm
      simp
    · have := ih (n + 1) q hm
      omega

theorem extractPages_mem_spec (f : Str) :
    ∀ (ps : List Str) (n : Nat) (q : Question), q ∈ extractPages f n ps →
      ∃ i, i < ps.length ∧ q.page = n + i + 1
        ∧ q.text ∈ splitIntoQuestions (ps.getD i []) := by
  intro ps
  induction ps with
  | nil => intro n q h; simp [extractPages] at h
  | cons pg rest ih =>
    intro n q h
    rw [extractPages] at h
    rcases List.mem_append.mp h with hm | hm
    · obtain ⟨b, hb, rfl⟩ := List.mem_map.mp hm
      exact ⟨0, by simp, by simp, by simpa using hb⟩
    · obtain ⟨i, hi, hpage, htext⟩ := ih (n + 1) q hm
      refine ⟨i + 1, by simpa using hi, by omega, by simpa using htext⟩

theorem extractPages_pages_mono (f : Str) :
    ∀ (ps : List Str) (n : Nat),
      List.Pairwise (fun a b => a.page ≤ b.page) (extractPages f n ps) := by
  intro ps
  induction ps with
  | nil => intro n; simp [extractPages]
  | cons pg rest ih =>
    intro n
    rw [extractPages]
    refine List.pairwise_append.mpr ⟨?_, ih (n + 1), ?_⟩
    · rw [List.pairwise_map]
      exact pairwise_of_total (fun a b => le_refl (n + 1)) _
    · intro a ha b hb
      obtain ⟨blk, _, rfl⟩ := List.mem_map.mp ha
      have := extractPages_page_lb f rest (n + 1) b hb
      simp only
      omega

theorem extractPages_filter_page (f : Str) :
    ∀ (ps : List Str) (n i : Nat), i < ps.length →
      ((extractPages f n ps).filter (fun q => q.page = n + i + 1)).map
          (fun q => q.text)
        = splitIntoQuestions (ps.getD i []) := by
  intro ps
  induction ps with
  | nil => intro n i hi; simp at hi
  | cons pg rest ih =>
    intro n i hi
    rw [extractPages, List.filter_append, List.map_append]
    cases i with
    | zero =>
      have h1 : ((splitIntoQuestions pg).map (fun block =>
          ({ source := f, page := n + 1, text := block,
             topics := identifyTopics block } : Question))).filter
            (fun q => q.page = n + 0 + 1)
          = (splitIntoQuestions pg).map (fun block =>
          ({ source := f, page := n + 1, text := block,
             topics := identifyTopics block } : Question)) := by
        refine List.filter_eq_self.mpr (fun q hq => ?_)
        obtain ⟨b, _, rfl⟩ := List.mem_map.mp hq
        simp
      have h2 : (extractPages f (n + 1) rest).filter
          (fun q => q.page = n + 0 + 1) = [] := by
        refine List.filter_eq_nil_iff.mpr (fun q hq => ?_)
        have := extractPages_page_lb f rest (n + 1) q hq
        simp only [decide_eq_true_eq]
        omega
      rw [h1, h2, List.map_map]
      have hcomp : ((fun q : Question => q.text) ∘ (fun block =>
          ({ source := f, page := n + 1, text := block,
             topics := identifyTopics block } : Question)))
          = fun block => block := rfl
      rw [hcomp]
      simp
    | succ j =>
      have h1 : ((splitIntoQuestions pg).map (fun block =>
          ({ source := f, page := n + 1, text := block,
             topics := identifyTopics block } : Question))).filter
            (fun q => q.page = n + (j + 1) + 1) = [] := by
        refine List.filter_eq_nil_iff.mpr (fun q hq => ?_)
        obtain ⟨b, _, rfl⟩ := List.mem_map.mp hq
        simp only [decide_eq_true_eq]
        omega
      have h2 : n + (j + 1) + 1 = (n + 1) + j + 1 := by omega
      rw [h1, h2, ih (n + 1) j (by simpa using hi)]
      simp

/-- C8: the pipeline's output is ordered by document first (per-document
contributions concatenate in catalog order), then by page (page numbers
are nondecreasing within a document), then by block (the records of page
i+1 list exactly that page's blocks in segmentation order); nothing is
re-sorted. -/
theorem pipeline_triple_ordering (f : Str) (d : DocState)
    (docs : List (Str × DocState)) (pages : List Str) (i : Nat)
    (hi : i < pages.length) :
    extractAll ((f, d) :: docs) = extractQuestionsFromPdf f d ++ extractAll docs
    ∧ List.Pairwise (fun a b => a.page ≤ b.page) (extractQuestionsFromPdf f d)
    ∧ ((extractPages f 0 pages).filter (fun q => q.page = i + 1)).map
        (fun q => q.text) = splitIntoQuestions (pages.getD i []) := by
  refine ⟨by simp [extractAll], ?_, ?_⟩
  · cases d with
    | missing => simp [extractQuestionsFromPdf]
    | ok pages2 => exact extractPages_pages_mono f pages2 0
    | failsAfter pages2 => exact extractPages_pages_mono f pages2 0
  · have h := extractPages_filter_page f pages 0 i hi
    simpa using h

theorem pipeline_triple_ordering_witness :
    ((extractPages ("TB_1.pdf".data) 0 ["1. x".data]).filter
        (fun q => q.page = 0 + 1)).map (fun q => q.text)
      = splitIntoQuestions ((["1. x".data]).getD 0 []) :=
  (pipeline_triple_ordering ("TB_1.pdf".data) DocState.missing [] ["1. x".data]
    0 (by decide)).2.2

/-- C9: every extracted record has pageNumber ≥ 1 equal to the 1-based
position of the page its block came from, and the selection filter passes
records through unchanged, preserving the invariant. -/
theorem page_number_one_based (f : Str) (d : DocState) (q : Question)
    (hq : q ∈ extractQuestionsFromPdf f d) :
    1 ≤ q.page
    ∧ (∃ i, i < (pagesOf d).length ∧ q.page = i + 1
        ∧ q.text ∈ splitIntoQuestions ((pagesOf d).getD i []))
    ∧ ∀ (records : List Question) (wanted : List Str) (mq : Option Int)
        (r : Question), r ∈ selectQuestions records wanted mq → r ∈ records := by
  have hmem : q ∈ extractPages f 0 (pagesOf d) := by
    cases d with
    | missing => simp [extractQuestionsFromPdf] at hq
    | ok ps => exact hq
    | failsAfter ps => exact hq
  obtain ⟨i, hi, hpage, htext⟩ := extractPages_mem_spec f (pagesOf d) 0 q hmem
  refine ⟨by omega, ⟨i, hi, by omega, htext⟩, ?_⟩
  intro records wanted mq r hr
  have hsub : selectQuestions records wanted mq
      ⊆ records.filter (matchesAny wanted) := by
    cases mq with
    | none => exact fun x hx => hx
    | some m =>
      simp only [selectQuestions]
      by_cases hm : 0 < m
      · rw [if_pos hm]
        exact List.take_subset _ _
      · rw [if_neg hm]
        exact fun x hx => hx
  exact List.mem_of_mem_filter (hsub hr)

theorem page_number_one_based_witness :
    1 ≤ demoQuestion.page
    ∧ (∃ i, i < (pagesOf demoDoc).length ∧ demoQuestion.page = i + 1
        ∧ demoQuestion.text ∈ splitIntoQuestions ((pagesOf demoDoc).getD i []))
    ∧ ∀ (records : List Question) (wanted : List Str) (mq : Option Int)
        (r : Question), r ∈ selectQuestions records wanted mq → r ∈ records :=
  page_number_one_based ("TB_1.pdf".data) demoDoc demoQuestion (by decide)

/-- C7: a configured document whose backing file is missing contributes zero
records and no failure, and the pipeline still returns every other
document's records. -/
theorem missing_doc_contributes_nothing (f : Str)
    (pre post : List (Str × DocState)) :
    extractQuestionsFromPdf f DocState.missing = []
    ∧ extractAll (pre ++ (f, DocState.missing) :: post)
        = extractAll pre ++ extractAll post := by
  refine ⟨rfl, ?_⟩
  simp [extractAll, extractQuestionsFromPdf]

end APCalc
